import Mathlib

/-!
Verification of the Kairi pull-request review service.

This file gives a shallow embedding, in Lean 4, of the pure parts of the
Kairi core that the specification talks about, and proves (or refutes)
the specified properties against that embedding:

* `src/utils/diff-parser.ts` — the `ParsedFile` / `DiffHunk` / `DiffLine`
  data model (data only; no parsing needed here);
* `src/llm/chunker.ts` — `chunkFiles`, `estimateFileTokens`, `truncateFile`;
* `src/review/filter.ts` — `filterFindings`, `isInlineWorthy`, `severityRank`;
* `src/review/orchestrator.ts` — `deduplicateFindings`;
* `src/metrics/pg-store.ts` — the `feature_flags` and `pending_reviews`
  tables, `initMetricsDb` seeding, `getFeatureFlag`, `resolvePendingReview`;
* `src/learning/vector-store.ts` and `src/learning/graph-store.ts` —
  `updateApproval` on the stored interaction records;
* `src/learning/concept-extractor.ts` — `extractConcepts`, `extractFileStem`;
* `src/learning/recall.ts` — `retrieveLearningContext` and its calls into
  the two stores;
* `src/utils/logger.ts` (retry helper) and `src/llm/reviewer.ts` —
  `withRetry` and the retry predicate used for model calls.

Modelling conventions: JavaScript numbers that the code only ever uses as
integers (token budgets, line numbers, ids, counts, severities) are `Nat`;
confidences and scores, which live in [0,1], are `ℚ`; the two floating
point comparisons in the chunker (`tokens > budget * 0.8` and
`Math.floor(budget * 0.7)`) are modelled exactly over the rationals as
`5 * tokens > 4 * budget` and `budget * 7 / 10`. `async` functions are
modelled as pure functions; external systems (Postgres, Qdrant, Neo4j,
the LLM endpoint) appear as explicit state values or oracle arguments, so
a database update becomes a function from table state to table state and
a store query becomes an application of the oracle.
-/

/-! ### Data model: `src/utils/diff-parser.ts` -/

inductive LineType where
  | add : LineType
  | del : LineType
  | context : LineType
deriving DecidableEq, Repr

structure DiffLine where
  type : LineType
  content : String
  oldLineNumber : Option Nat
  newLineNumber : Option Nat
deriving DecidableEq, Repr

structure DiffHunk where
  oldStart : Nat
  oldCount : Nat
  newStart : Nat
  newCount : Nat
  lines : List DiffLine
deriving DecidableEq, Repr

inductive FileStatus where
  | added : FileStatus
  | removed : FileStatus
  | modified : FileStatus
  | renamed : FileStatus
deriving DecidableEq, Repr

structure ParsedFile where
  filename : String
  status : FileStatus
  hunks : List DiffHunk
  additions : Nat
  deletions : Nat
deriving DecidableEq, Repr

/-! ### Chunker: `src/llm/chunker.ts` -/

namespace Chunker

structure FileChunk where
  files : List ParsedFile
  estimatedTokens : Nat
deriving DecidableEq, Repr

/-- The `FILE_PRIORITY` record from `chunker.ts`, as an association list. -/
def FILE_PRIORITY : List (String × Nat) :=
  [(".ts", 10), (".tsx", 10), (".js", 10), (".jsx", 10),
   (".py", 10), (".go", 10), (".rs", 10), (".java", 10),
   (".rb", 10), (".kt", 10), (".swift", 10), (".cs", 10),
   (".json", 5), (".yml", 5), (".yaml", 5), (".toml", 5),
   (".env", 5), (".ini", 5),
   (".test.ts", 4), (".spec.ts", 4), (".test.js", 4), (".spec.js", 4),
   (".md", 2), (".txt", 2), (".rst", 2)]

/-- The eight suffixes matched by the regex
`\.(test|spec)\.(ts|js|tsx|jsx)$` in `getFilePriority`. -/
def testFileSuffixes : List String :=
  [".test.ts", ".test.js", ".test.tsx", ".test.jsx",
   ".spec.ts", ".spec.js", ".spec.tsx", ".spec.jsx"]

/-- `getFilePriority` from `chunker.ts`: test files get 4, otherwise the
extension (everything after the last dot) is looked up in `FILE_PRIORITY`
with default 3. -/
def getFilePriority (filename : String) : Nat :=
  if testFileSuffixes.any (fun s => filename.endsWith s) then 4
  else
    match FILE_PRIORITY.lookup ("." ++ (filename.splitOn ".").getLastD "") with
    | some p => p
    | none => 3

/-- `estimateFileTokens` from `chunker.ts`: filename length plus 20 header
overhead, plus per line the content length plus 5, divided by 4 chars per
token, rounded up. -/
def estimateFileTokens (file : ParsedFile) : Nat :=
  let chars := file.filename.length + 20 +
    (file.hunks.map (fun h => (h.lines.map (fun l => l.content.length + 5)).sum)).sum
  (chars + 3) / 4

/-- Token estimate of one diff line inside `truncateFile`:
`Math.ceil((line.content.length + 5) / 4)`. -/
def lineTokens (l : DiffLine) : Nat :=
  (l.content.length + 5 + 3) / 4

/-- The inner loop of `truncateFile`: keep the longest prefix of the hunk
lines such that `tokens + hunkTokens + lineTokens <= maxTokens` holds at
each step; returns the kept lines and their token total. -/
def truncHunkLines (base max : Nat) : List DiffLine → Nat → (List DiffLine × Nat)
  | [], acc => ([], acc)
  | l :: ls, acc =>
    if base + acc + lineTokens l > max then ([], acc)
    else
      let r := truncHunkLines base max ls (acc + lineTokens l)
      (l :: r.1, r.2)

/-- The outer loop of `truncateFile` over the hunks: returns the kept
hunks together with the recomputed addition and deletion counts. -/
def truncGo (max : Nat) : List DiffHunk → Nat → (List DiffHunk × Nat × Nat)
  | [], _ => ([], 0, 0)
  | h :: hs, tokens =>
    let r := truncHunkLines tokens max h.lines 0
    if r.1.length > 0 then
      let adds := (r.1.filter (fun l => l.type = LineType.add)).length
      let dels := (r.1.filter (fun l => l.type = LineType.del)).length
      let tokens' := tokens + r.2
      if tokens' ≥ max then ([{ h with lines := r.1 }], adds, dels)
      else
        let rest := truncGo max hs tokens'
        ({ h with lines := r.1 } :: rest.1, adds + rest.2.1, dels + rest.2.2)
    else
      if tokens ≥ max then ([], 0, 0)
      else truncGo max hs tokens

/-- `truncateFile` from `chunker.ts`: trims the hunk lines to fit
`maxTokens`, recomputing `additions` and `deletions` for the retained
lines only.  The running total starts from
`Math.ceil(filename.length / 4) + 20`. -/
def truncateFile (file : ParsedFile) (maxTokens : Nat) : ParsedFile :=
  let tokens0 := (file.filename.length + 3) / 4 + 20
  let r := truncGo maxTokens file.hunks tokens0
  { file with hunks := r.1, additions := r.2.1, deletions := r.2.2 }

/-- The sort comparator of `chunkFiles` (priority descending, estimated
size ascending within equal priority), phrased as the `le` relation the
stable merge sort consumes: `chunkLE a b` holds exactly when the JS
comparator returns a non-positive number on `(a, b)`. -/
def chunkLE (a b : ParsedFile) : Bool :=
  let pa := getFilePriority a.filename
  let pb := getFilePriority b.filename
  if pa = pb then estimateFileTokens a ≤ estimateFileTokens b
  else pb < pa

/-- `tokens > maxTokenBudget * 0.8`, exactly over the rationals. -/
abbrev oversize (budget : Nat) (file : ParsedFile) : Prop :=
  5 * estimateFileTokens file > 4 * budget

/-- `Math.floor(maxTokenBudget * 0.7)`, exactly over the rationals. -/
def truncBudget (budget : Nat) : Nat := budget * 7 / 10

/-- The greedy packing loop of `chunkFiles` over the sorted file list,
carrying the chunk under construction. -/
def chunkLoop (budget : Nat) (current : FileChunk) : List ParsedFile → List FileChunk
  | [] => if current.files.length > 0 then [current] else []
  | f :: rest =>
    let tokens := estimateFileTokens f
    if oversize budget f then
      let tr := truncateFile f (truncBudget budget)
      (if current.files.length > 0 then [current] else []) ++
        ({ files := [tr], estimatedTokens := estimateFileTokens tr } ::
          chunkLoop budget { files := [], estimatedTokens := 0 } rest)
    else if current.estimatedTokens + tokens > budget then
      (if current.files.length > 0 then [current] else []) ++
        chunkLoop budget { files := [f], estimatedTokens := tokens } rest
    else
      chunkLoop budget
        { files := current.files ++ [f],
          estimatedTokens := current.estimatedTokens + tokens } rest

/-- `chunkFiles` from `chunker.ts`. -/
def chunkFiles (files : List ParsedFile) (maxTokenBudget : Nat) : List FileChunk :=
  chunkLoop maxTokenBudget { files := [], estimatedTokens := 0 }
    (files.mergeSort chunkLE)

/-- The image of one sorted file in the chunk output: oversize files are
replaced by their truncation, the rest pass through unchanged. -/
def chunkImage (budget : Nat) (f : ParsedFile) : ParsedFile :=
  if oversize budget f then truncateFile f (truncBudget budget) else f

theorem truncateFile_filename (file : ParsedFile) (maxTokens : Nat) :
    (truncateFile file maxTokens).filename = file.filename := rfl

theorem chunkImage_filename (budget : Nat) (f : ParsedFile) :
    (chunkImage budget f).filename = f.filename := by
  unfold chunkImage
  split <;> rfl

theorem files_eq_nil_of_length_not_pos (c : FileChunk)
    (h : ¬ c.files.length > 0) : c.files = [] := by
  cases hf : c.files with
  | nil => rfl
  | cons a t => rw [hf] at h; simp at h

theorem chunkLoop_flatMap (budget : Nat) :
    ∀ (l : List ParsedFile) (current : FileChunk),
      ((chunkLoop budget current l).flatMap FileChunk.files) =
        current.files ++ l.map (chunkImage budget) := by
  intro l
  induction l with
  | nil =>
    intro current
    simp only [chunkLoop, List.map_nil, List.append_nil]
    split
    · simp [List.flatMap]
    · next h =>
      simp [List.flatMap, files_eq_nil_of_length_not_pos current h]
  | cons f rest ih =>
    intro current
    simp only [chunkLoop]
    by_cases hov : oversize budget f
    · have himg : chunkImage budget f = truncateFile f (truncBudget budget) := by
        simp [chunkImage, hov]
      rw [if_pos hov, List.flatMap_append, List.flatMap_cons, ih]
      split
      · next h =>
        simp [List.flatMap, himg]
      · next h =>
        simp [List.flatMap, himg, files_eq_nil_of_length_not_pos current h]
    · have himg : chunkImage budget f = f := by simp [chunkImage, hov]
      rw [if_neg hov]
      by_cases hfit : current.estimatedTokens + estimateFileTokens f > budget
      · rw [if_pos hfit, List.flatMap_append, ih]
        split
        · next h => simp [himg]
        · next h =>
          simp [List.flatMap, himg, files_eq_nil_of_length_not_pos current h]
      · rw [if_neg hfit, ih]
        simp [himg]

theorem chunkFiles_flatMap (files : List ParsedFile) (budget : Nat) :
    (chunkFiles files budget).flatMap FileChunk.files =
      (files.mergeSort chunkLE).map (chunkImage budget) := by
  unfold chunkFiles
  rw [chunkLoop_flatMap]
  rfl

theorem oversize_mem_chunkLoop (budget : Nat) :
    ∀ (l : List ParsedFile) (current : FileChunk) (f : ParsedFile),
      f ∈ l → oversize budget f →
      ({ files := [truncateFile f (truncBudget budget)],
         estimatedTokens := estimateFileTokens (truncateFile f (truncBudget budget)) }
        : FileChunk) ∈ chunkLoop budget current l := by
  intro l
  induction l with
  | nil => intro current f hf; simp at hf
  | cons g rest ih =>
    intro current f hf hov
    rcases List.mem_cons.mp hf with hfg | hfr
    · subst hfg
      rw [chunkLoop, if_pos hov]
      refine List.mem_append_right _ ?_
      exact List.mem_cons_self _ _
    · rw [chunkLoop]
      by_cases hg : oversize budget g
      · rw [if_pos hg]
        refine List.mem_append_right _ ?_
        exact List.mem_cons_of_mem _ (ih _ f hfr hov)
      · rw [if_neg hg]
        by_cases hfit : current.estimatedTokens + estimateFileTokens g > budget
        · rw [if_pos hfit]
          exact List.mem_append_right _ (ih _ f hfr hov)
        · rw [if_neg hfit]
          exact ih _ f hfr hov

/-- C1: for every list of parsed files and every token budget > 0,
`chunkFiles` covers every input file exactly once — the multiset of
filenames across all chunks equals the multiset of input filenames (no
file dropped or duplicated), an empty input yields an empty chunk list,
every oversize file appears (truncated) as a standalone single-file
chunk, and every input file (hunks or not) occupies some chunk. -/
theorem C1_chunker_coverage (files : List ParsedFile) (budget : Nat)
    (_hb : 0 < budget) :
    (((chunkFiles files budget).flatMap FileChunk.files).map ParsedFile.filename).Perm
        (files.map ParsedFile.filename) ∧
      (files = [] → chunkFiles files budget = []) ∧
      (∀ f ∈ files, oversize budget f →
        ({ files := [truncateFile f (truncBudget budget)],
           estimatedTokens := estimateFileTokens (truncateFile f (truncBudget budget)) }
          : FileChunk) ∈ chunkFiles files budget) ∧
      (∀ f ∈ files, ∃ c ∈ chunkFiles files budget, ∃ g ∈ c.files,
        g.filename = f.filename) := by
  have hcover :
      (((chunkFiles files budget).flatMap FileChunk.files).map ParsedFile.filename).Perm
        (files.map ParsedFile.filename) := by
    rw [chunkFiles_flatMap, List.map_map]
    have : (ParsedFile.filename ∘ chunkImage budget) = ParsedFile.filename := by
      funext f
      exact chunkImage_filename budget f
    rw [this]
    exact (files.mergeSort_perm chunkLE).map ParsedFile.filename
  refine ⟨hcover, ?_, ?_, ?_⟩
  · intro h
    subst h
    simp [chunkFiles, List.mergeSort_nil, chunkLoop]
  · intro f hf hov
    exact oversize_mem_chunkLoop budget _ _ f
      (by rw [List.mem_mergeSort]; exact hf) hov
  · intro f hf
    have hmem : f.filename ∈ (files.map ParsedFile.filename) :=
      List.mem_map_of_mem _ hf
    have hmem2 : f.filename ∈
        ((chunkFiles files budget).flatMap FileChunk.files).map ParsedFile.filename :=
      hcover.mem_iff.mpr hmem
    rcases List.mem_map.mp hmem2 with ⟨g, hg, hgname⟩
    rcases List.mem_flatMap.mp hg with ⟨c, hc, hgc⟩
    exact ⟨c, hc, g, hgc, hgname⟩

/-- A small concrete file with no hunks, used to instantiate theorems. -/
def exFileNoHunks : ParsedFile :=
  { filename := "a.ts", status := FileStatus.modified, hunks := [],
    additions := 0, deletions := 0 }

/-- Witness for C1 at a concrete input: one hunkless file with budget
100; the coverage and occupancy conclusions hold there. -/
theorem C1_chunker_coverage_witness :
    0 < 100 ∧
      ((((chunkFiles [exFileNoHunks] 100).flatMap FileChunk.files).map
          ParsedFile.filename).Perm ([exFileNoHunks].map ParsedFile.filename) ∧
        ∀ f ∈ [exFileNoHunks], ∃ c ∈ chunkFiles [exFileNoHunks] 100,
          ∃ g ∈ c.files, g.filename = f.filename) :=
  ⟨by decide,
   (C1_chunker_coverage [exFileNoHunks] 100 (by decide)).1,
   (C1_chunker_coverage [exFileNoHunks] 100 (by decide)).2.2.2⟩

end Chunker

/-! ### Findings: `src/review/types.ts` -/

inductive Source where
  | rule : Source
  | llm : Source
  | human : Source
deriving DecidableEq, Repr

inductive Severity where
  | error : Severity
  | warning : Severity
  | info : Severity
deriving DecidableEq, Repr

structure ReviewFinding where
  path : String
  line : Nat
  body : String
  source : Source
  severity : Severity
  category : String
  confidence : ℚ
  suggestedFix : Option String := none
  ruleId : Option String := none
  graphContext : Option String := none
deriving DecidableEq, Repr

/-- The two fields of `config.review` that `filterFindings` consumes
(`inlineThreshold`, `maxInlineComments`). -/
structure ReviewSettings where
  inlineThreshold : ℚ
  maxInlineComments : Nat
deriving DecidableEq, Repr

structure RepoConfig where
  review : ReviewSettings
deriving DecidableEq, Repr

/-! ### FindingFilter: `src/review/filter.ts` -/

namespace Filter

structure FilteredFindings where
  inline : List ReviewFinding
  bodyOnly : List ReviewFinding
deriving DecidableEq, Repr

/-- `severityRank` from `filter.ts`. -/
def severityRank (s : Severity) : Nat :=
  match s with
  | Severity.error => 3
  | Severity.warning => 2
  | Severity.info => 1

/-- `isInlineWorthy` from `filter.ts`. -/
def isInlineWorthy (finding : ReviewFinding) (threshold : ℚ) : Bool :=
  if finding.severity = Severity.error then true
  else if finding.category = "security" ∨ finding.category = "bugs" then true
  else if finding.severity = Severity.warning ∧ threshold ≤ finding.confidence then true
  else false

/-- The sort comparator of `filterFindings` (severity descending, then
confidence descending), phrased as the `le` relation the stable merge
sort consumes: `filterLE a b` holds exactly when the JS comparator
returns a non-positive number on `(a, b)`. -/
def filterLE (a b : ReviewFinding) : Bool :=
  if severityRank a.severity = severityRank b.severity
  then decide (b.confidence ≤ a.confidence)
  else decide (severityRank b.severity < severityRank a.severity)

/-- The inline-candidate list built by the partition loop in
`filterFindings`, before sorting and capping. -/
def inlineCandidates (findings : List ReviewFinding) (threshold : ℚ) :
    List ReviewFinding :=
  findings.filter (fun f => isInlineWorthy f threshold)

/-- `filterFindings` from `filter.ts`: partition by `isInlineWorthy`,
sort the candidates, cap at `maxInlineComments`, append the overflow to
`bodyOnly`. -/
def filterFindings (findings : List ReviewFinding) (config : RepoConfig) :
    FilteredFindings :=
  let threshold := config.review.inlineThreshold
  let maxInline := config.review.maxInlineComments
  let parts := findings.partition (fun f => isInlineWorthy f threshold)
  let sorted := parts.1.mergeSort filterLE
  { inline := sorted.take maxInline,
    bodyOnly := parts.2 ++ sorted.drop maxInline }

theorem filterFindings_eq (findings : List ReviewFinding) (config : RepoConfig) :
    filterFindings findings config =
      { inline := ((findings.filter
            (fun f => isInlineWorthy f config.review.inlineThreshold)).mergeSort
              filterLE).take config.review.maxInlineComments,
        bodyOnly := findings.filter
            (fun f => !(isInlineWorthy f config.review.inlineThreshold)) ++
          ((findings.filter
            (fun f => isInlineWorthy f config.review.inlineThreshold)).mergeSort
              filterLE).drop config.review.maxInlineComments } := by
  show FilteredFindings.mk _ _ = _
  rw [List.partition_eq_filter_filter]
  simp only [FilteredFindings.mk.injEq, true_and]
  congr 1

theorem filterLE_total (a b : ReviewFinding) : filterLE a b || filterLE b a := by
  simp only [filterLE]
  rcases eq_or_ne (severityRank a.severity) (severityRank b.severity) with h | h
  · rw [if_pos h, if_pos h.symm]
    simp only [Bool.or_eq_true, decide_eq_true_eq]
    exact le_total b.confidence a.confidence
  · rw [if_neg h, if_neg (Ne.symm h)]
    simp only [Bool.or_eq_true, decide_eq_true_eq]
    omega

theorem filterLE_trans (a b c : ReviewFinding)
    (hab : filterLE a b) (hbc : filterLE b c) : filterLE a c := by
  simp only [filterLE] at hab hbc ⊢
  rcases eq_or_ne (severityRank a.severity) (severityRank b.severity) with h1 | h1 <;>
    rcases eq_or_ne (severityRank b.severity) (severityRank c.severity) with h2 | h2
  · rw [if_pos h1] at hab
    rw [if_pos h2] at hbc
    rw [if_pos (h1.trans h2)]
    simp only [decide_eq_true_eq] at hab hbc ⊢
    exact le_trans hbc hab
  · rw [if_neg h2] at hbc
    rw [if_neg (by omega : severityRank a.severity ≠ severityRank c.severity)]
    simp only [decide_eq_true_eq] at hbc ⊢
    omega
  · rw [if_neg h1] at hab
    rw [if_pos h2] at hbc
    rw [if_neg (by omega : severityRank a.severity ≠ severityRank c.severity)]
    simp only [decide_eq_true_eq] at hab ⊢
    omega
  · rw [if_neg h1] at hab
    rw [if_neg h2] at hbc
    simp only [decide_eq_true_eq] at hab hbc
    rw [if_neg (by omega : severityRank a.severity ≠ severityRank c.severity)]
    simp only [decide_eq_true_eq]
    omega

theorem isInlineWorthy_iff (f : ReviewFinding) (t : ℚ) :
    isInlineWorthy f t = true ↔
      (f.severity = Severity.error ∨ f.category = "security" ∨
        f.category = "bugs" ∨
        (f.severity = Severity.warning ∧ t ≤ f.confidence)) := by
  unfold isInlineWorthy
  split_ifs with h1 h2 h3
  · simp [h1]
  · rcases h2 with h2 | h2 <;> simp [h2]
  · simp [h3]
  · simp only [false_iff]
    push_neg
    push_neg at h2 h3
    refine ⟨h1, h2.1, h2.2, h3⟩

/-- C2: a finding is an inline candidate iff its severity is error, or
its category is security or bugs, or it is a warning with confidence at
or above the threshold; the inline output is sorted by severity then
confidence descending, capped at the configured maximum; the two outputs
together are a permutation of the input (nothing dropped); and no finding
kept in `bodyOnly` by the cap outranks one kept inline. -/
theorem C2_filter_policy (findings : List ReviewFinding) (config : RepoConfig) :
    (∀ f, f ∈ inlineCandidates findings config.review.inlineThreshold ↔
        (f ∈ findings ∧
          (f.severity = Severity.error ∨ f.category = "security" ∨
            f.category = "bugs" ∨
            (f.severity = Severity.warning ∧
              config.review.inlineThreshold ≤ f.confidence)))) ∧
      List.Pairwise (fun a b => filterLE a b = true)
        (filterFindings findings config).inline ∧
      (filterFindings findings config).inline.length ≤
        config.review.maxInlineComments ∧
      ((filterFindings findings config).inline ++
          (filterFindings findings config).bodyOnly).Perm findings ∧
      (∀ a ∈ (filterFindings findings config).inline,
        ∀ b ∈ (filterFindings findings config).bodyOnly,
          isInlineWorthy b config.review.inlineThreshold = true →
            filterLE a b = true) := by
  have hr := filterFindings_eq findings config
  have hS : ((findings.filter
      (fun f => isInlineWorthy f config.review.inlineThreshold)).mergeSort
        filterLE).Pairwise (fun a b => filterLE a b = true) :=
    List.sorted_mergeSort filterLE_trans filterLE_total _
  refine ⟨?_, ?_, ?_, ?_, ?_⟩
  · intro f
    rw [inlineCandidates, List.mem_filter]
    exact and_congr_right (fun _ => isInlineWorthy_iff f _)
  · rw [hr]
    exact hS.sublist (List.take_sublist _ _)
  · rw [hr]
    exact List.length_take_le _ _
  · rw [hr]
    have h1 : ((((findings.filter
          (fun f => isInlineWorthy f config.review.inlineThreshold)).mergeSort
            filterLE).take config.review.maxInlineComments) ++
        (findings.filter
            (fun f => !(isInlineWorthy f config.review.inlineThreshold)) ++
          (((findings.filter
              (fun f => isInlineWorthy f config.review.inlineThreshold)).mergeSort
                filterLE).drop config.review.maxInlineComments))).Perm
        ((((findings.filter
          (fun f => isInlineWorthy f config.review.inlineThreshold)).mergeSort
            filterLE).take config.review.maxInlineComments) ++
        ((((findings.filter
              (fun f => isInlineWorthy f config.review.inlineThreshold)).mergeSort
                filterLE).drop config.review.maxInlineComments) ++
          findings.filter
            (fun f => !(isInlineWorthy f config.review.inlineThreshold)))) :=
      List.Perm.append_left _ (List.perm_append_comm)
    refine h1.trans ?_
    rw [← List.append_assoc, List.take_append_drop]
    exact (((findings.filter
        (fun f => isInlineWorthy f config.review.inlineThreshold)).mergeSort_perm
          filterLE).append_right _).trans
      (List.filter_append_perm _ findings)
  · rw [hr]
    intro a ha b hb hbw
    rcases List.mem_append.mp hb with hbNW | hbD
    · exfalso
      have := (List.mem_filter.mp hbNW).2
      rw [hbw] at this
      simp at this
    · have hsplit : ((((findings.filter
          (fun f => isInlineWorthy f config.review.inlineThreshold)).mergeSort
            filterLE).take config.review.maxInlineComments) ++
          (((findings.filter
            (fun f => isInlineWorthy f config.review.inlineThreshold)).mergeSort
              filterLE).drop config.review.maxInlineComments)).Pairwise
          (fun a b => filterLE a b = true) := by
        rw [List.take_append_drop]
        exact hS
      exact (List.pairwise_append.mp hsplit).2.2 a ha b hbD

/-- Concrete findings used to instantiate the filter theorems: one
low-confidence error and one threshold-confidence performance warning
with cap 1 (the shape of the spec scenario). -/
def exErrFinding : ReviewFinding :=
  { path := "a.ts", line := 1, body := "err", source := Source.rule,
    severity := Severity.error, category := "style", confidence := 0 }

def exWarnFinding : ReviewFinding :=
  { path := "a.ts", line := 2, body := "warn", source := Source.llm,
    severity := Severity.warning, category := "performance",
    confidence := 1 }

def exConfig : RepoConfig :=
  { review := { inlineThreshold := 1, maxInlineComments := 1 } }

theorem exFilter_eval :
    filterFindings [exErrFinding, exWarnFinding] exConfig =
      { inline := [exErrFinding], bodyOnly := [exWarnFinding] } := by
  rw [filterFindings_eq]
  have hsorted : List.Pairwise (fun a b => filterLE a b = true)
      [exErrFinding, exWarnFinding] := by
    refine List.pairwise_cons.mpr ⟨?_, ?_⟩
    · intro b hb
      rw [List.mem_singleton.mp hb]
      decide
    · simp
  have hfilter : List.filter
      (fun f => isInlineWorthy f exConfig.review.inlineThreshold)
      [exErrFinding, exWarnFinding] = [exErrFinding, exWarnFinding] := by
    decide
  have hfilter2 : List.filter
      (fun f => !(isInlineWorthy f exConfig.review.inlineThreshold))
      [exErrFinding, exWarnFinding] = [] := by
    decide
  rw [hfilter, hfilter2, List.mergeSort_of_sorted hsorted]
  rfl

/-- Witness for C2 at a concrete input: with cap 1, the error finding is
kept inline and outranks the overflowed warning (here the membership
hypotheses of the displacement clause are discharged concretely). -/
theorem C2_filter_policy_witness :
    filterLE exErrFinding exWarnFinding = true :=
  (C2_filter_policy [exErrFinding, exWarnFinding] exConfig).2.2.2.2
    exErrFinding (by rw [exFilter_eval]; exact List.mem_singleton.mpr rfl)
    exWarnFinding (by rw [exFilter_eval]; exact List.mem_singleton.mpr rfl)
    (by decide)

theorem filter_take_of_sorted_candidates (findings : List ReviewFinding)
    (t : ℚ) (n : Nat) :
    (((findings.filter (fun f => isInlineWorthy f t)).mergeSort
        filterLE).take n).filter (fun f => isInlineWorthy f t) =
      ((findings.filter (fun f => isInlineWorthy f t)).mergeSort
        filterLE).take n := by
  refine List.filter_eq_self.mpr ?_
  intro b hb
  have hbS := List.take_subset n _ hb
  rw [List.mem_mergeSort] at hbS
  exact (List.mem_filter.mp hbS).2

theorem filter_drop_of_sorted_candidates (findings : List ReviewFinding)
    (t : ℚ) (n : Nat) :
    (((findings.filter (fun f => isInlineWorthy f t)).mergeSort
        filterLE).drop n).filter (fun f => isInlineWorthy f t) =
      ((findings.filter (fun f => isInlineWorthy f t)).mergeSort
        filterLE).drop n := by
  refine List.filter_eq_self.mpr ?_
  intro b hb
  have hbS := List.drop_subset n _ hb
  rw [List.mem_mergeSort] at hbS
  exact (List.mem_filter.mp hbS).2

/-- C8: `filterFindings` is idempotent — re-partitioning the
concatenation of a result with the same config reproduces the result,
and in fact the two output lists are reproduced exactly. -/
theorem C8_filter_idempotent (findings : List ReviewFinding)
    (config : RepoConfig) :
    filterFindings ((filterFindings findings config).inline ++
        (filterFindings findings config).bodyOnly) config =
      filterFindings findings config := by
  have hr := filterFindings_eq findings config
  rw [hr, filterFindings_eq]
  have hS : ((findings.filter
      (fun f => isInlineWorthy f config.review.inlineThreshold)).mergeSort
        filterLE).Pairwise (fun a b => filterLE a b = true) :=
    List.sorted_mergeSort filterLE_trans filterLE_total _
  have hNW1 : (findings.filter
      (fun f => !(isInlineWorthy f config.review.inlineThreshold))).filter
        (fun f => isInlineWorthy f config.review.inlineThreshold) = [] := by
    rw [List.filter_filter]
    refine List.filter_eq_nil_iff.mpr ?_
    intro a _
    simp [Bool.and_comm]
  have hNW2 : (findings.filter
      (fun f => !(isInlineWorthy f config.review.inlineThreshold))).filter
        (fun f => !(isInlineWorthy f config.review.inlineThreshold)) =
      findings.filter
        (fun f => !(isInlineWorthy f config.review.inlineThreshold)) := by
    refine List.filter_eq_self.mpr ?_
    intro b hb
    exact (List.mem_filter.mp hb).2
  have hTake2 : (((findings.filter
      (fun f => isInlineWorthy f config.review.inlineThreshold)).mergeSort
        filterLE).take config.review.maxInlineComments).filter
        (fun f => !(isInlineWorthy f config.review.inlineThreshold)) = [] := by
    refine List.filter_eq_nil_iff.mpr ?_
    intro b hb
    have hbS := List.take_subset _ _ hb
    rw [List.mem_mergeSort] at hbS
    simp [(List.mem_filter.mp hbS).2]
  have hDrop2 : (((findings.filter
      (fun f => isInlineWorthy f config.review.inlineThreshold)).mergeSort
        filterLE).drop config.review.maxInlineComments).filter
        (fun f => !(isInlineWorthy f config.review.inlineThreshold)) = [] := by
    refine List.filter_eq_nil_iff.mpr ?_
    intro b hb
    have hbS := List.drop_subset _ _ hb
    rw [List.mem_mergeSort] at hbS
    simp [(List.mem_filter.mp hbS).2]
  rw [List.filter_append, List.filter_append,
    List.filter_append, List.filter_append,
    filter_take_of_sorted_candidates, filter_drop_of_sorted_candidates,
    hNW1, hNW2, hTake2, hDrop2, List.append_nil]
  rw [List.nil_append, List.take_append_drop, List.mergeSort_of_sorted hS]
  simp

end Filter

/-! ### Metrics store: `src/metrics/pg-store.ts` -/

namespace PgStore

/-- One row of the `pending_reviews` table (`PendingReviewRow`).
Timestamps are abstract `Nat` instants; the serialized review result is
an opaque string. -/
structure PendingReviewRow where
  id : Nat
  created_at : Nat
  repo : String
  pull_number : Nat
  head_sha : String
  owner : String
  installation_id : Nat
  result_json : String
  status : String
  resolved_at : Option Nat
deriving DecidableEq, Repr

/-- The `"approved" | "rejected"` union type of `resolvePendingReview`. -/
inductive Resolution where
  | approved : Resolution
  | rejected : Resolution
deriving DecidableEq, Repr

def Resolution.toStatus : Resolution → String
  | Resolution.approved => "approved"
  | Resolution.rejected => "rejected"

/-- The WHERE clause of the UPDATE in `resolvePendingReview`:
`id = $2 AND status = 'pending'`. -/
def pendingHit (id : Nat) (r : PendingReviewRow) : Bool :=
  decide (r.id = id) && decide (r.status = "pending")

/-- The SET clause: `status = $1, resolved_at = NOW()`. -/
def applyResolution (resolution : Resolution) (now : Nat)
    (r : PendingReviewRow) : PendingReviewRow :=
  { r with status := resolution.toStatus, resolved_at := some now }

/-- `resolvePendingReview` from `pg-store.ts`: a single UPDATE guarded by
`status = 'pending'`, returning the updated row (`rows[0] ?? null`) and
the table state after the update. -/
def resolvePendingReview (now : Nat) (db : List PendingReviewRow)
    (id : Nat) (resolution : Resolution) :
    Option PendingReviewRow × List PendingReviewRow :=
  (((db.filter (pendingHit id)).map (applyResolution resolution now)).head?,
   db.map (fun r => if pendingHit id r then applyResolution resolution now r else r))

theorem Resolution.toStatus_ne_pending (res : Resolution) :
    res.toStatus ≠ "pending" := by
  cases res <;> decide

/-- C3: resolving a pending review is a compare-and-set on
`status = 'pending'` — on a table whose only row with the given id is
pending, the first resolution call returns that row with the terminal
status and resolution time set, and any second resolution call on the
resulting table returns null and leaves the table (hence the status and
`resolved_at` written by the first call) unchanged. -/
theorem map_resolve_of_nohit (rid : Nat) (res : Resolution) (now : Nat) :
    ∀ (l : List PendingReviewRow), (∀ r ∈ l, pendingHit rid r = false) →
      l.map (fun r => if pendingHit rid r then applyResolution res now r else r) = l := by
  intro l
  induction l with
  | nil => intro _; rfl
  | cons a t iht =>
    intro hl
    rw [List.map_cons, if_neg (by simp [hl a (List.mem_cons_self a t)]),
      iht (fun r hr => hl r (List.mem_cons_of_mem a hr))]

theorem C3_resolve_pending_cas (db : List PendingReviewRow) (rid : Nat)
    (row : PendingReviewRow) (res₁ res₂ : Resolution) (now₁ now₂ : Nat)
    (huniq : db.filter (fun r => decide (r.id = rid)) = [row])
    (hpending : row.status = "pending") :
    (resolvePendingReview now₁ db rid res₁).1 =
        some { row with status := res₁.toStatus, resolved_at := some now₁ } ∧
      resolvePendingReview now₂ (resolvePendingReview now₁ db rid res₁).2 rid res₂ =
        (none, (resolvePendingReview now₁ db rid res₁).2) := by
  have hhit : db.filter (pendingHit rid) = [row] := by
    have h1 : db.filter (pendingHit rid) =
        (db.filter (fun r => decide (r.id = rid))).filter
          (fun r => decide (r.status = "pending")) := by
      rw [List.filter_filter]
      exact List.filter_congr (fun a _ => by unfold pendingHit; rw [Bool.and_comm])
    rw [h1, huniq]
    simp [List.filter, hpending]
  have honly : ∀ r ∈ db, r.id = rid → r = row := by
    intro r hr hid
    have hmem : r ∈ db.filter (fun r => decide (r.id = rid)) := by
      rw [List.mem_filter]
      exact ⟨hr, by simp [hid]⟩
    rw [huniq] at hmem
    exact List.mem_singleton.mp hmem
  have hnohit : ∀ r' ∈ (resolvePendingReview now₁ db rid res₁).2,
      pendingHit rid r' = false := by
    intro r' hr'
    rcases List.mem_map.mp hr' with ⟨r, hr, hrr⟩
    by_cases hh : pendingHit rid r = true
    · rw [if_pos hh] at hrr
      subst hrr
      unfold pendingHit applyResolution
      simp [Resolution.toStatus_ne_pending res₁]
    · rw [if_neg (by simpa using hh)] at hrr
      subst hrr
      by_cases hid : r.id = rid
      · exfalso
        apply hh
        have hreq := honly r hr hid
        rw [hreq]
        unfold pendingHit
        simp [hpending, hreq ▸ hid]
      · unfold pendingHit
        simp [hid]
  constructor
  · show ((db.filter (pendingHit rid)).map (applyResolution res₁ now₁)).head? = _
    rw [hhit]
    rfl
  · have hfilter2 : ((resolvePendingReview now₁ db rid res₁).2).filter
        (pendingHit rid) = [] :=
      List.filter_eq_nil_iff.mpr (fun r' hr' => by simp [hnohit r' hr'])
    show (_, _) = (_, _)
    rw [Prod.mk.injEq]
    constructor
    · show ((((resolvePendingReview now₁ db rid res₁).2).filter
          (pendingHit rid)).map (applyResolution res₂ now₂)).head? = none
      rw [hfilter2]
      rfl
    · exact map_resolve_of_nohit rid res₂ now₂ _ hnohit

/-- A concrete pending row used to instantiate the gate theorems. -/
def exPendingRow : PendingReviewRow :=
  { id := 1, created_at := 0, repo := "octo/repo", pull_number := 7,
    head_sha := "abc", owner := "octo", installation_id := 42,
    result_json := "{}", status := "pending", resolved_at := none }

/-- Witness for C3 at a concrete one-row table: approve then reject. -/
theorem C3_resolve_pending_cas_witness :
    (resolvePendingReview 10 [exPendingRow] 1 Resolution.approved).1 =
        some { exPendingRow with status := "approved", resolved_at := some 10 } ∧
      resolvePendingReview 20
          (resolvePendingReview 10 [exPendingRow] 1 Resolution.approved).2 1
          Resolution.rejected =
        (none, (resolvePendingReview 10 [exPendingRow] 1 Resolution.approved).2) :=
  C3_resolve_pending_cas [exPendingRow] 1 exPendingRow
    Resolution.approved Resolution.rejected 10 20 (by decide) (by decide)

/-- The `feature_flags` table: key, enabled, last-updated instant. -/
structure FeatureFlagRow where
  key : String
  enabled : Bool
  updated_at : Nat
deriving DecidableEq, Repr

/-- `INSERT ... ON CONFLICT (key) DO NOTHING` from `initMetricsDb`. -/
def insertFlagIfAbsent (db : List FeatureFlagRow) (key : String)
    (enabled : Bool) (now : Nat) : List FeatureFlagRow :=
  if db.any (fun kv => decide (kv.key = key)) then db
  else db ++ [{ key := key, enabled := enabled, updated_at := now }]

/-- The flag seeding performed by `initMetricsDb`: `sync_enabled` is
seeded to `false` and `review_gate` is seeded to `true`. -/
def initFeatureFlags (db : List FeatureFlagRow) (now : Nat) :
    List FeatureFlagRow :=
  insertFlagIfAbsent (insertFlagIfAbsent db "sync_enabled" false now)
    "review_gate" true now

/-- `getFeatureFlag` from `pg-store.ts`: the row value when the key is
present, `false` otherwise. -/
def getFeatureFlag (db : List FeatureFlagRow) (key : String) : Bool :=
  match db.find? (fun kv => decide (kv.key = key)) with
  | some kv => kv.enabled
  | none => false

/-- C5 (divergence exhibit): on a freshly initialized flag table,
reading `review_gate` yields `true`, not `false` — `initMetricsDb` seeds
the gate on — while any absent key does read through to `false` as
claimed.  The repository test suite asserts the gate defaults to false,
so the seeding contradicts the tests. -/
theorem C5_review_gate_seeded_true :
    getFeatureFlag (initFeatureFlags [] 0) "review_gate" = true ∧
      getFeatureFlag (initFeatureFlags [] 0) "absent_key" = false ∧
      getFeatureFlag [] "review_gate" = false := by
  decide

end PgStore

/-! ### Learning stores: `src/learning/vector-store.ts` and
`src/learning/graph-store.ts` -/

/-- `ReviewInteraction` from `src/learning/types.ts`: the durable record
of one finding or human comment, stored in both knowledge stores.  The
`approved` field is the tri-state (`some true` / `some false` / `none`). -/
structure ReviewInteraction where
  id : String
  repo : String
  pullNumber : Nat
  diffContext : String
  reviewComment : String
  filePath : String
  line : Nat
  category : String
  approved : Option Bool
  concepts : List String
  timestamp : String
  source : Source
  severity : Severity
  prAuthor : Option String := none
deriving DecidableEq, Repr

namespace VectorStore

/-- `updateApproval` from `vector-store.ts`: Qdrant `setPayload` of
`{ approved }` on the point with the given id — an unconditional
overwrite of the `approved` payload field. -/
def updateApproval (store : List ReviewInteraction) (interactionId : String)
    (approved : Bool) : List ReviewInteraction :=
  store.map (fun p =>
    if p.id = interactionId then { p with approved := some approved } else p)

end VectorStore

namespace GraphStore

/-- `updateApproval` from `graph-store.ts`:
`MATCH (i:Interaction {id: $id}) SET i.approved = $approved` — an
unconditional overwrite of the `approved` node property. -/
def updateApproval (store : List ReviewInteraction) (interactionId : String)
    (approved : Bool) : List ReviewInteraction :=
  store.map (fun i =>
    if i.id = interactionId then { i with approved := some approved } else i)

end GraphStore

/-- A concrete already-resolved interaction (`approved = some true`). -/
def exResolvedInteraction : ReviewInteraction :=
  { id := "i1", repo := "octo/repo", pullNumber := 7, diffContext := "+ x",
    reviewComment := "avoid this", filePath := "a.ts", line := 3,
    category := "bugs", approved := some true, concepts := ["file:a.ts"],
    timestamp := "t0", source := Source.llm, severity := Severity.warning }

/-- C4 counterexample: on an interaction already resolved to
`some true`, a second feedback signal carrying `false` changes the
stored approval to `some false` in both stores — there is no
compare-and-set at the approval-write layer, so the claim that the write
leaves the stored value unchanged is false. -/
theorem C4_update_approval_counterexample :
    (VectorStore.updateApproval [exResolvedInteraction] "i1" false).map
        ReviewInteraction.approved = [some false] ∧
      (GraphStore.updateApproval [exResolvedInteraction] "i1" false).map
        ReviewInteraction.approved = [some false] ∧
      exResolvedInteraction.approved = some true ∧
      some false ≠ some true := by
  decide

/-- C4 amended: `updateApproval` in both stores is an unconditional
last-write-wins overwrite — repeating a signal with the same value is a
no-op, a later signal with any value simply replaces the field, and
interactions with other ids are untouched. -/
theorem C4_update_approval_no_cas (store : List ReviewInteraction)
    (iid : String) (v w : Bool) :
    VectorStore.updateApproval (VectorStore.updateApproval store iid v) iid v =
        VectorStore.updateApproval store iid v ∧
      VectorStore.updateApproval (VectorStore.updateApproval store iid v) iid w =
        VectorStore.updateApproval store iid w ∧
      GraphStore.updateApproval (GraphStore.updateApproval store iid v) iid v =
        GraphStore.updateApproval store iid v ∧
      GraphStore.updateApproval (GraphStore.updateApproval store iid v) iid w =
        GraphStore.updateApproval store iid w ∧
      (∀ p ∈ store, p.id ≠ iid →
        p ∈ VectorStore.updateApproval store iid v ∧
          p ∈ GraphStore.updateApproval store iid v) := by
  have hover : ∀ (u : Bool),
      store.map (fun p =>
          if p.id = iid then { p with approved := some u } else p) =
        (store.map (fun p =>
          if p.id = iid then { p with approved := some v } else p)).map
            (fun p =>
              if p.id = iid then { p with approved := some u } else p) := by
    intro u
    rw [List.map_map]
    refine List.map_congr_left ?_
    intro p _
    by_cases hp : p.id = iid
    · simp [hp]
    · simp [hp]
  refine ⟨(hover v).symm, (hover w).symm, (hover v).symm, (hover w).symm, ?_⟩
  intro p hp hne
  exact ⟨List.mem_map.mpr ⟨p, hp, by rw [if_neg hne]⟩,
    List.mem_map.mpr ⟨p, hp, by rw [if_neg hne]⟩⟩

/-- Witness for the amended C4 at a concrete store: the untouched-rows
clause applied to an interaction with a different id. -/
theorem C4_update_approval_no_cas_witness :
    exResolvedInteraction ∈
      VectorStore.updateApproval [exResolvedInteraction] "i2" false :=
  ((C4_update_approval_no_cas [exResolvedInteraction] "i2" false false).2.2.2.2
    exResolvedInteraction (List.mem_singleton.mpr rfl) (by decide)).1

/-! ### Retry helper and reviewer: `src/utils/logger.ts` (withRetry) and
`src/llm/reviewer.ts` -/

namespace Retry

/-- The error shape `withRetry` callers discriminate on: an upstream API
error with an HTTP status. -/
structure ApiError where
  status : Nat
deriving DecidableEq, Repr

/-- The attempt loop of `withRetry`, fuelled by the remaining attempt
count.  `fn attempt` is the outcome of the attempt with that (1-based)
number.  The JS loop throws `unreachable` when `maxAttempts = 0`;
that corner is modelled as a status-0 error. -/
def withRetryAux {α : Type} (fn : Nat → Except ApiError α)
    (maxAttempts : Nat) (retryOn : ApiError → Bool) :
    Nat → Nat → Except ApiError α
  | _, 0 => Except.error { status := 0 }
  | attempt, fuel + 1 =>
    match fn attempt with
    | Except.ok a => Except.ok a
    | Except.error e =>
      if attempt = maxAttempts ∨ retryOn e = false then Except.error e
      else withRetryAux fn maxAttempts retryOn (attempt + 1) fuel

/-- `withRetry` from the retry helper: run `fn` for attempts
`1 .. maxAttempts`, rethrowing immediately when the attempt is the last
one or `retryOn` rejects the error, and retrying (after a backoff sleep,
which has no observable effect here) otherwise. -/
def withRetry {α : Type} (fn : Nat → Except ApiError α)
    (maxAttempts : Nat) (retryOn : ApiError → Bool) : Except ApiError α :=
  withRetryAux fn maxAttempts retryOn 1 maxAttempts

end Retry

namespace Reviewer

/-- The retry predicate `reviewFileChunk` passes to `withRetry`:
`err.status === 529 || err.status === 500`. -/
def reviewerRetryOn (e : Retry.ApiError) : Bool :=
  decide (e.status = 529) || decide (e.status = 500)

/-- One comment of a parsed model response (`llmCommentSchema`). -/
structure LLMComment where
  path : String
  line : Nat
  body : String
  severity : Severity
  category : String
  confidence : ℚ
  suggestedFix : Option String := none
deriving DecidableEq, Repr

/-- A parsed per-file analysis response (`fileAnalysisResponseSchema`). -/
structure FileAnalysisResponse where
  fileSummary : String
  comments : List LLMComment
deriving DecidableEq, Repr

structure FileAnalysis where
  filename : String
  summary : String
  comments : List ReviewFinding
deriving DecidableEq, Repr

def toFinding (c : LLMComment) : ReviewFinding :=
  { path := c.path, line := c.line, body := c.body, source := Source.llm,
    severity := c.severity, category := c.category,
    confidence := c.confidence, suggestedFix := c.suggestedFix }

/-- `reviewFileChunk` from `reviewer.ts`, with the model call abstracted
as the per-attempt outcome function `attempts` (`Except.ok none` is a
response whose text failed to parse; exceptions after retry yield
`none`, the chunk-failed result).  Hallucinated paths are filtered
against the files actually in the chunk. -/
def reviewFileChunk (attempts : Nat → Except Retry.ApiError (Option FileAnalysisResponse))
    (chunk : Chunker.FileChunk) : Option (List FileAnalysis) :=
  match Retry.withRetry attempts 2 reviewerRetryOn with
  | Except.error _ => none
  | Except.ok none =>
    some (chunk.files.map (fun f =>
      { filename := f.filename, summary := "", comments := [] }))
  | Except.ok (some parsed) =>
    let validFiles := chunk.files.map ParsedFile.filename
    let comments := (parsed.comments.filter
      (fun c => validFiles.contains c.path)).map toFinding
    match chunk.files with
    | [f] =>
      some [{ filename := f.filename
              summary := parsed.fileSummary
              comments := comments }]
    | _ =>
      some (chunk.files.map (fun f =>
        { filename := f.filename
          summary := parsed.fileSummary
          comments := comments.filter (fun c => c.path = f.filename) }))

/-- The chunk loop of `runFileAnalysis`: each chunk is reviewed
independently and a `null` result is skipped without aborting the loop. -/
def runChunks (review : Chunker.FileChunk → Option (List FileAnalysis)) :
    List Chunker.FileChunk → List FileAnalysis
  | [] => []
  | c :: cs =>
    match review c with
    | some rs => rs ++ runChunks review cs
    | none => runChunks review cs

theorem runChunks_append (review : Chunker.FileChunk → Option (List FileAnalysis)) :
    ∀ (l₁ l₂ : List Chunker.FileChunk),
      runChunks review (l₁ ++ l₂) = runChunks review l₁ ++ runChunks review l₂ := by
  intro l₁
  induction l₁ with
  | nil => intro l₂; rfl
  | cons c cs ih =>
    intro l₂
    rw [List.cons_append, runChunks, runChunks]
    cases review c with
    | none => exact ih l₂
    | some rs => rw [ih l₂, List.append_assoc]

/-- A model-call outcome sequence that fails with a rate-limit error
(HTTP 429) on the first attempt and succeeds on any later attempt. -/
def attempts429 : Nat → Except Retry.ApiError Nat :=
  fun attempt =>
    if attempt = 1 then Except.error { status := 429 } else Except.ok 7

/-- An outcome sequence that fails with an overload error (HTTP 529) on
the first attempt and succeeds on any later attempt. -/
def attempts529 : Nat → Except Retry.ApiError Nat :=
  fun attempt =>
    if attempt = 1 then Except.error { status := 529 } else Except.ok 5

/-- C7 counterexample: a rate-limit failure (HTTP 429) on the first
attempt is not retried, even though a second attempt would have
succeeded — the retry predicate accepts only 529 and 500, so the claim
that rate-limit errors are among the retried transient classes is false. -/
theorem C7_retry_counterexample :
    Retry.withRetry attempts429 2 reviewerRetryOn =
        Except.error { status := 429 } ∧
      attempts429 2 = Except.ok 7 ∧
      reviewerRetryOn { status := 429 } = false :=
  ⟨rfl, rfl, by decide⟩

/-- C7 amended: model calls made by `reviewFileChunk` go through
`withRetry` with `maxAttempts = 2` and are retried exactly for statuses
529 (overload) and 500 (server error) — not 429 — with the second
attempt outcome final; a chunk whose call still fails yields `null`
(contributing no findings and no summary), and a failed chunk is skipped
by the chunk loop without disturbing its siblings. -/
theorem C7_retry_policy :
    (∀ e : Retry.ApiError,
      reviewerRetryOn e = true ↔ (e.status = 529 ∨ e.status = 500)) ∧
      (∀ (α : Type) (fn : Nat → Except Retry.ApiError α),
        Retry.withRetry fn 2 reviewerRetryOn =
          match fn 1 with
          | Except.ok a => Except.ok a
          | Except.error e =>
            if reviewerRetryOn e then fn 2 else Except.error e) ∧
      (∀ (attempts : Nat → Except Retry.ApiError (Option FileAnalysisResponse))
          (chunk : Chunker.FileChunk) (e : Retry.ApiError),
        Retry.withRetry attempts 2 reviewerRetryOn = Except.error e →
          reviewFileChunk attempts chunk = none) ∧
      (∀ (review : Chunker.FileChunk → Option (List FileAnalysis))
          (cs₁ cs₂ : List Chunker.FileChunk) (c : Chunker.FileChunk),
        review c = none →
          runChunks review (cs₁ ++ c :: cs₂) = runChunks review (cs₁ ++ cs₂)) := by
  refine ⟨?_, ?_, ?_, ?_⟩
  · intro e
    simp [reviewerRetryOn]
  · intro α fn
    cases h1 : fn 1 with
    | ok a => simp [Retry.withRetry, Retry.withRetryAux, h1]
    | error e =>
      by_cases hr : reviewerRetryOn e = true
      · cases h2 : fn 2 with
        | ok a => simp [Retry.withRetry, Retry.withRetryAux, h1, h2, hr]
        | error e2 => simp [Retry.withRetry, Retry.withRetryAux, h1, h2, hr]
      · have hr' : reviewerRetryOn e = false := by simpa using hr
        simp [Retry.withRetry, Retry.withRetryAux, h1, hr']
  · intro attempts chunk e he
    rw [reviewFileChunk, he]
  · intro review cs₁ cs₂ c hc
    rw [runChunks_append, runChunks_append, runChunks, hc]

/-- Witness for the amended C7 at concrete inputs: a 529 then success is
retried to success, and a failing chunk between two siblings leaves the
siblings untouched. -/
theorem C7_retry_policy_witness :
    Retry.withRetry attempts529 2 reviewerRetryOn = Except.ok 5 ∧
      runChunks (fun _ => none)
          ([] ++ ({ files := [], estimatedTokens := 0 } : Chunker.FileChunk) :: []) =
        runChunks (fun _ => none) ([] ++ []) := by
  constructor
  · rw [C7_retry_policy.2.1 Nat attempts529]
    rfl
  · exact C7_retry_policy.2.2.2 (fun _ => none) [] []
      { files := [], estimatedTokens := 0 } rfl

/-! ### Concept extractor: `src/learning/concept-extractor.ts`

String primitives are modelled character-wise (structurally over
`List Char`) so that concrete instances evaluate: `lowerStr` is
`toLowerCase`, `trimStr` is `trim`, `splitOnChar` is `split`, and the
word matcher below is the semantics of the `\b(w1|w2|...)\b` regexes of
the keyword fallback. -/

namespace ConceptExtractor

def strTake (s : String) (n : Nat) : String := String.mk (s.data.take n)

def lowerStr (s : String) : String := String.mk (s.data.map Char.toLower)

def isJsSpace (c : Char) : Bool :=
  c = ' ' || c = '\t' || c = '\n' || c = '\r'

def trimStr (s : String) : String :=
  String.mk (((s.data.dropWhile isJsSpace).reverse.dropWhile isJsSpace).reverse)

def splitOnChar (c : Char) (s : List Char) : List (List Char) :=
  s.foldr
    (fun d acc =>
      match acc with
      | [] => [[d]]
      | a :: rest => if d = c then [] :: a :: rest else (d :: a) :: rest)
    [[]]

/-- `filename.split("/").pop() ?? ""`. -/
def basenameOf (filename : String) : String :=
  String.mk ((splitOnChar '/' filename.data).getLastD [])

/-- `extractFileStem` from `concept-extractor.ts`: the basename up to
its first dot (only when the dot is at a positive index), lowercased. -/
def extractFileStem (filename : String) : String :=
  let basename := basenameOf filename
  match basename.data.findIdx? (fun c => c = '.') with
  | some i =>
    if 0 < i then lowerStr (String.mk (basename.data.take i))
    else lowerStr basename
  | none => lowerStr basename

/-- The deterministic file-level identifiers emitted first by
`extractConcepts`: `file:<path>` always, `stem:<stem>` when the stem is
longer than 2 characters. -/
def fileTags (files : List ParsedFile) : List String :=
  files.flatMap (fun f =>
    ("file:" ++ f.filename) ::
      (if 2 < (extractFileStem f.filename).length
       then ["stem:" ++ extractFileStem f.filename]
       else []))

/-- The `clean` step of `parseConceptArray`: lowercase, trim, keep
lengths strictly between 2 and 50, cap at 7. -/
def cleanConcepts (raw : List String) : List String :=
  ((raw.map (fun c => trimStr (lowerStr c))).filter
    (fun c => decide (2 < c.length) && decide (c.length < 50))).take 7

def isWordChar (c : Char) : Bool := c.isAlphanum || c = '_'

def takeMatch : List Char → List Char → Option (List Char)
  | [], s => some s
  | _ :: _, [] => none
  | c :: w, d :: s => if c = d then takeMatch w s else none

def boundaryBefore : Option Char → Bool
  | none => true
  | some c => !(isWordChar c)

def boundaryAfter : List Char → Bool
  | [] => true
  | c :: _ => !(isWordChar c)

def containsWordAux (w : List Char) : Option Char → List Char → Bool
  | prev, [] =>
    (match takeMatch w [] with
     | some rest => boundaryBefore prev && boundaryAfter rest
     | none => false)
  | prev, c :: s =>
    (match takeMatch w (c :: s) with
     | some rest => boundaryBefore prev && boundaryAfter rest
     | none => false) || containsWordAux w (some c) s

/-- `\bw\b` matches somewhere in `s`: an occurrence of `w` bounded on
both sides by a non-word character or the string edge. -/
def containsWord (s w : String) : Bool := containsWordAux w.data none s.data

def matchesWordAny (s : String) (ws : List String) : Bool :=
  ws.any (fun w => containsWord s w)

/-- `fallbackExtract` from `concept-extractor.ts`: the deterministic
keyword-regex fallback used when the LLM call fails. -/
def fallbackExtract (comment : String) : List String :=
  let lower := lowerStr comment
  let concepts :=
    (if matchesWordAny lower ["null", "undefined", "optional", "nil"]
     then ["null-safety"] else []) ++
    (if matchesWordAny lower ["error", "exception", "try", "catch", "throw"]
     then ["error-handling"] else []) ++
    (if matchesWordAny lower
        ["security", "secret", "credential", "token", "password", "xss", "injection"]
     then ["security"] else []) ++
    (if matchesWordAny lower
        ["performance", "slow", "memory", "leak", "optimize", "cache", "latency"]
     then ["performance"] else []) ++
    (if matchesWordAny lower ["test", "coverage", "spec", "assert", "mock"]
     then ["testing"] else []) ++
    (if matchesWordAny lower ["type", "interface", "generic", "enum"]
     then ["type-safety"] else []) ++
    (if matchesWordAny lower
        ["async", "await", "promise", "race", "concurrent", "parallel"]
     then ["async-patterns"] else []) ++
    (if matchesWordAny lower ["naming", "name", "readab", "clean"]
     then ["naming-convention"] else []) ++
    (if matchesWordAny lower ["refactor", "extract", "duplicate", "dry"]
     then ["code-structure"] else []) ++
    (if matchesWordAny lower ["validate", "sanitize", "input", "check"]
     then ["input-validation"] else [])
  if concepts.length = 0 then ["general-review"] else concepts

/-- `extractConcepts` from `concept-extractor.ts`.  The external LLM
call of `extractWithLLM` is the oracle argument `llm`: `some raw` is a
successful call whose response text parsed to the array `raw` (the
`clean` step is applied here, as in `parseConceptArray`), `none` is a
thrown error, which routes to the keyword fallback.  The semantic stage
runs only when the trimmed comment is longer than 10 characters, and the
result is truncated to 15 tags, file/stem tags first. -/
def extractConcepts (llm : Option (List String)) (files : List ParsedFile)
    (reviewComment : String) : List String :=
  let concepts := fileTags files
  let semantic :=
    if 10 < (trimStr reviewComment).length then
      match llm with
      | some raw => cleanConcepts raw
      | none => fallbackExtract reviewComment
    else []
  (concepts ++ semantic).take 15

theorem mem_fileTags_file (files : List ParsedFile) (f : ParsedFile)
    (hf : f ∈ files) : ("file:" ++ f.filename) ∈ fileTags files :=
  List.mem_flatMap.mpr ⟨f, hf, List.mem_cons_self _ _⟩

theorem mem_fileTags_stem (files : List ParsedFile) (f : ParsedFile)
    (hf : f ∈ files) (hs : 2 < (extractFileStem f.filename).length) :
    ("stem:" ++ extractFileStem f.filename) ∈ fileTags files := by
  refine List.mem_flatMap.mpr ⟨f, hf, List.mem_cons_of_mem _ ?_⟩
  rw [if_pos hs]
  exact List.mem_singleton.mpr rfl

/-- C9 amended: the extractor output has length at most 15 and starts
with the deterministic file/stem tags; whenever those deterministic tags
number at most 15 — in particular for small file sets — every input
file's `file:<path>` tag and every long-enough stem's `stem:<stem>` tag
survives into the output.  (Without that bound the 15-tag truncation can
drop later file/stem tags; see the counterexample.) -/
theorem C9_concept_tags (llm : Option (List String)) (files : List ParsedFile)
    (text : String) :
    (extractConcepts llm files text).length ≤ 15 ∧
      ((fileTags files).length ≤ 15 →
        (∃ rest, extractConcepts llm files text = fileTags files ++ rest) ∧
          (∀ f ∈ files,
            ("file:" ++ f.filename) ∈ extractConcepts llm files text) ∧
          (∀ f ∈ files, 2 < (extractFileStem f.filename).length →
            ("stem:" ++ extractFileStem f.filename) ∈
              extractConcepts llm files text)) := by
  constructor
  · exact List.length_take_le _ _
  · intro hlen
    have hsplit : ∀ (sem : List String),
        (fileTags files ++ sem).take 15 =
          fileTags files ++ sem.take (15 - (fileTags files).length) := by
      intro sem
      rw [List.take_append_eq_append_take, List.take_of_length_le hlen]
    have heq : ∃ rest, extractConcepts llm files text = fileTags files ++ rest := by
      simp only [extractConcepts]
      exact ⟨_, hsplit _⟩
    rcases heq with ⟨rest, hrest⟩
    refine ⟨⟨rest, hrest⟩, ?_, ?_⟩
    · intro f hf
      rw [hrest]
      exact List.mem_append_left _ (mem_fileTags_file files f hf)
    · intro f hf hs
      rw [hrest]
      exact List.mem_append_left _ (mem_fileTags_stem files f hf hs)

/-- Witness for the amended C9 at one concrete file. -/
theorem C9_concept_tags_witness :
    ("file:" ++ Chunker.exFileNoHunks.filename) ∈
      extractConcepts none [Chunker.exFileNoHunks] "" :=
  ((C9_concept_tags none [Chunker.exFileNoHunks] "").2 (by decide)).2.1
    Chunker.exFileNoHunks (List.mem_singleton.mpr rfl)

/-- Sixteen markdown files whose stems are too short for stem tags. -/
def exManyFiles : List ParsedFile :=
  ["q0", "q1", "q2", "q3", "q4", "q5", "q6", "q7", "q8", "q9",
   "r0", "r1", "r2", "r3", "r4", "r5"].map (fun n =>
    { filename := n ++ ".md", status := FileStatus.modified, hunks := [],
      additions := 0, deletions := 0 })

/-- C9 counterexample: with 16 input files the 15-tag truncation drops
the 16th file tag, so the output does not include `file:<path>` for
every input file as claimed. -/
theorem C9_counterexample :
    ("file:r5.md" ∉ extractConcepts none exManyFiles "") ∧
      "r5.md" ∈ exManyFiles.map ParsedFile.filename := by
  decide

end ConceptExtractor

/-! ### Learning recall: `src/learning/recall.ts` -/

namespace Recall

/-- `RetrievedPattern` from `src/learning/types.ts` (the fields recall
consumes). -/
structure RetrievedPattern where
  diffSnippet : String
  reviewComment : String
  filePath : String
  category : String
  approved : Option Bool
  score : ℚ
deriving DecidableEq, Repr

/-- A record of one concept-keyed graph lookup actually issued against
Neo4j by `getRelatedInteractions`. -/
structure GraphQuery where
  concepts : List String
  repo : String
  limit : Nat
deriving DecidableEq, Repr

/-- The external stores and the concept-extraction LLM, as oracles: what
Qdrant answers a similarity search, what Neo4j answers a concept lookup
or a file-history lookup, and what the LLM call returns for a given
query text (as in `ConceptExtractor.extractConcepts`). -/
structure StoreOracles where
  vectorSearch : String → String → Nat → List RetrievedPattern
  graphConcepts : List String → String → Nat → List RetrievedPattern
  graphFileHistory : String → String → Nat → List RetrievedPattern
  llmTags : String → Option (List String)

/-- `getRelatedInteractions` from `graph-store.ts`: with an empty
concept list (or no driver) it returns `[]` without querying the
database; otherwise it runs the concept-keyed Cypher query.  The second
component records the queries issued. -/
def getRelatedInteractions (o : StoreOracles) (concepts : List String)
    (repo : String) (limit : Nat) :
    List RetrievedPattern × List GraphQuery :=
  if concepts.length = 0 then ([], [])
  else (o.graphConcepts concepts repo limit,
    [{ concepts := concepts, repo := repo, limit := limit }])

/-- The query text built at the top of `retrieveLearningContext`: all
filenames, then for the first 5 files up to 20 added-line contents,
joined by newlines and cut to 3000 characters. -/
def buildQuery (files : List ParsedFile) : String :=
  let queryParts := files.map ParsedFile.filename ++
    (files.take 5).flatMap (fun file =>
      (((file.hunks.flatMap DiffHunk.lines).filter
          (fun l => l.type = LineType.add)).map DiffLine.content).take 20)
  ConceptExtractor.strTake (String.intercalate "\n" queryParts) 3000

/-- The dedup key of `deduplicatePatterns`:
`filePath + ":" + reviewComment.slice(0, 50)`. -/
def patternKey (p : RetrievedPattern) : String :=
  p.filePath ++ ":" ++ ConceptExtractor.strTake p.reviewComment 50

def deduplicatePatternsAux (seen : List String) :
    List RetrievedPattern → List RetrievedPattern
  | [] => []
  | p :: rest =>
    if seen.contains (patternKey p) then deduplicatePatternsAux seen rest
    else p :: deduplicatePatternsAux (patternKey p :: seen) rest

/-- `deduplicatePatterns` from `recall.ts`: keep the first pattern per
`(filePath, commentPrefix)` key. -/
def deduplicatePatterns (patterns : List RetrievedPattern) :
    List RetrievedPattern :=
  deduplicatePatternsAux [] patterns

structure LearningContext where
  approvedPatterns : List RetrievedPattern
  rejectedPatterns : List RetrievedPattern
deriving DecidableEq, Repr

/-- `retrieveLearningContext` from `recall.ts`, with the three store
stages applied to the oracles; the second component is the trace of
concept-keyed graph queries issued by the concept stage. -/
def retrieveLearningContext (o : StoreOracles) (files : List ParsedFile)
    (repo : String) : LearningContext × List GraphQuery :=
  let query := buildQuery files
  let semanticResults := o.vectorSearch query repo 10
  let concepts := ConceptExtractor.extractConcepts (o.llmTags query) files query
  let conceptStage := getRelatedInteractions o concepts repo 5
  let fileHistoryResults := (files.take 3).flatMap
    (fun file => o.graphFileHistory file.filename repo 3)
  let allResults := deduplicatePatterns
    (semanticResults ++ conceptStage.1 ++ fileHistoryResults)
  let approved := (allResults.filter
    (fun r => r.approved = some true)).take 5
  let rejected := (allResults.filter
    (fun r => r.approved = some false)).take 5
  ({ approvedPatterns := approved, rejectedPatterns := rejected },
   conceptStage.2)

/-- C6: the concept stage of `retrieveLearningContext` issues exactly
one graph lookup, keyed by the concept tags the extractor produced from
the input files and the built query text, with limit 5 — whenever the
extractor yields at least one tag; when it yields none, no concept
lookup is issued at all. -/
theorem C6_concept_stage_query (o : StoreOracles) (files : List ParsedFile)
    (repo : String) :
    (ConceptExtractor.extractConcepts (o.llmTags (buildQuery files)) files
        (buildQuery files) ≠ [] →
      (retrieveLearningContext o files repo).2 =
        [{ concepts := ConceptExtractor.extractConcepts
              (o.llmTags (buildQuery files)) files (buildQuery files),
            repo := repo, limit := 5 }]) ∧
      (ConceptExtractor.extractConcepts (o.llmTags (buildQuery files)) files
          (buildQuery files) = [] →
        (retrieveLearningContext o files repo).2 = []) := by
  constructor
  · intro h
    show (getRelatedInteractions o _ repo 5).2 = _
    rw [getRelatedInteractions,
      if_neg (by simpa [List.length_eq_zero] using h)]
  · intro h
    show (getRelatedInteractions o _ repo 5).2 = _
    rw [getRelatedInteractions, if_pos (by simp [h])]

/-- Oracles that answer every lookup with nothing and an LLM that always
fails over to the fallback. -/
def exEmptyOracles : StoreOracles :=
  { vectorSearch := fun _ _ _ => []
    graphConcepts := fun _ _ _ => []
    graphFileHistory := fun _ _ _ => []
    llmTags := fun _ => none }

/-- Witness for C6 at a concrete input: one file yields the tag list
`["file:a.ts"]`, and the concept stage queries the graph store with
exactly that list and limit 5. -/
theorem C6_concept_stage_query_witness :
    (retrieveLearningContext exEmptyOracles [Chunker.exFileNoHunks]
        "octo/repo").2 =
      [{ concepts := ["file:a.ts"], repo := "octo/repo", limit := 5 }] := by
  have h := (C6_concept_stage_query exEmptyOracles [Chunker.exFileNoHunks]
    "octo/repo").1 (by decide)
  rw [h]
  decide

end Recall

/-! ### Orchestrator deduplication: `src/review/orchestrator.ts`

`deduplicateFindings` folds the combined finding list into a JS `Map`
keyed by `path:line`.  A JS `Map` preserves insertion order and `set` on
an existing key updates the value in place, so the map is modelled as an
association list with in-place replacement. -/

namespace Orchestrator

/-- `severityRank` from `orchestrator.ts` (a local copy of the one in
`filter.ts`). -/
def severityRank (s : Severity) : Nat :=
  match s with
  | Severity.error => 3
  | Severity.warning => 2
  | Severity.info => 1

/-- The dedup key: `(f.path, f.line)` (the template string
`path:line`). -/
def keyOf (f : ReviewFinding) : String × Nat := (f.path, f.line)

/-- `Map.get` on the insertion-ordered association list. -/
def findVal (k : String × Nat) :
    List ((String × Nat) × ReviewFinding) → Option ReviewFinding
  | [] => none
  | kv :: rest => if kv.1 = k then some kv.2 else findVal k rest

/-- `Map.set` on a key that is already present: replace in place. -/
def replaceVal (k : String × Nat) (v : ReviewFinding)
    (m : List ((String × Nat) × ReviewFinding)) :
    List ((String × Nat) × ReviewFinding) :=
  m.map (fun kv => if kv.1 = k then (k, v) else kv)

/-- One iteration of the `deduplicateFindings` loop: keep the higher
severity finding, replacing only on strictly higher severity. -/
def dedupStep (m : List ((String × Nat) × ReviewFinding))
    (f : ReviewFinding) : List ((String × Nat) × ReviewFinding) :=
  match findVal (keyOf f) m with
  | none => m ++ [(keyOf f, f)]
  | some existing =>
    if severityRank existing.severity < severityRank f.severity
    then replaceVal (keyOf f) f m
    else m

/-- `deduplicateFindings` from `orchestrator.ts`:
`Array.from(seen.values())`. -/
def deduplicateFindings (findings : List ReviewFinding) :
    List ReviewFinding :=
  (findings.foldl dedupStep []).map Prod.snd

/-- The survivor of a run of same-key findings under the strict
replacement policy: start from the first and replace only on strictly
higher severity. -/
def survivor : ReviewFinding → List ReviewFinding → ReviewFinding
  | a, [] => a
  | a, f :: fs =>
    survivor (if severityRank a.severity < severityRank f.severity then f else a) fs

/-- `survivor` lifted to an optional accumulator. -/
def survivorOpt : Option ReviewFinding → List ReviewFinding → Option ReviewFinding
  | none, [] => none
  | none, f :: fs => some (survivor f fs)
  | some a, l => some (survivor a l)

theorem findVal_append_single (k k' : String × Nat) (v : ReviewFinding) :
    ∀ (m : List ((String × Nat) × ReviewFinding)),
      findVal k (m ++ [(k', v)]) =
        match findVal k m with
        | some x => some x
        | none => if k' = k then some v else none := by
  intro m
  induction m with
  | nil => rfl
  | cons kv rest ih =>
    rw [List.cons_append, findVal, findVal]
    by_cases h : kv.1 = k
    · rw [if_pos h, if_pos h]
    · rw [if_neg h, if_neg h, ih]

theorem findVal_replaceVal_self (k : String × Nat) (v : ReviewFinding) :
    ∀ (m : List ((String × Nat) × ReviewFinding)),
      findVal k (replaceVal k v m) =
        match findVal k m with
        | some _ => some v
        | none => none := by
  intro m
  induction m with
  | nil => rfl
  | cons kv rest ih =>
    rw [replaceVal, List.map_cons]
    by_cases h : kv.1 = k
    · rw [if_pos h]
      rw [findVal, if_pos rfl, findVal, if_pos h]
    · rw [if_neg h]
      rw [findVal, if_neg h, findVal, if_neg h]
      exact ih

theorem findVal_replaceVal_other (k k' : String × Nat) (v : ReviewFinding)
    (hne : k ≠ k') :
    ∀ (m : List ((String × Nat) × ReviewFinding)),
      findVal k (replaceVal k' v m) = findVal k m := by
  intro m
  induction m with
  | nil => rfl
  | cons kv rest ih =>
    rw [replaceVal, List.map_cons]
    by_cases h : kv.1 = k'
    · rw [if_pos h]
      rw [findVal, if_neg (Ne.symm hne), findVal, if_neg (h ▸ (Ne.symm hne) : ¬ kv.1 = k)]
      exact ih
    · rw [if_neg h]
      rw [findVal, findVal]
      by_cases h2 : kv.1 = k
      · rw [if_pos h2, if_pos h2]
      · rw [if_neg h2, if_neg h2]
        exact ih

/-- How one `dedupStep` changes the value stored at an arbitrary key. -/
theorem findVal_dedupStep (k : String × Nat)
    (m : List ((String × Nat) × ReviewFinding)) (f : ReviewFinding) :
    findVal k (dedupStep m f) =
      if keyOf f = k then
        match findVal k m with
        | none => some f
        | some a =>
          some (if severityRank a.severity < severityRank f.severity then f else a)
      else findVal k m := by
  by_cases hk : keyOf f = k
  · subst hk
    cases hm : findVal (keyOf f) m with
    | none =>
      simp only [dedupStep, hm]
      rw [findVal_append_single, hm]
      simp
    | some a =>
      by_cases hlt : severityRank a.severity < severityRank f.severity
      · simp only [dedupStep, hm, if_pos hlt]
        rw [findVal_replaceVal_self, hm]
        simp [hlt]
      · simp only [dedupStep, hm, if_neg hlt]
        simp [hlt]
  · rw [if_neg hk]
    cases hm : findVal (keyOf f) m with
    | none =>
      simp only [dedupStep, hm]
      rw [findVal_append_single]
      cases hmk : findVal k m with
      | none => simp [hk]
      | some x => simp
    | some a =>
      by_cases hlt : severityRank a.severity < severityRank f.severity
      · simp only [dedupStep, hm, if_pos hlt]
        exact findVal_replaceVal_other k (keyOf f) f (fun h => hk h.symm) m
      · simp only [dedupStep, hm, if_neg hlt]

theorem survivorOpt_step (o : Option ReviewFinding) (f : ReviewFinding)
    (fs : List ReviewFinding) :
    survivorOpt o (f :: fs) =
      survivorOpt
        (some (match o with
          | none => f
          | some a =>
            if severityRank a.severity < severityRank f.severity then f else a))
        fs := by
  cases o with
  | none => rfl
  | some a => simp [survivorOpt, survivor]

theorem survivorOpt_nil (o : Option ReviewFinding) : survivorOpt o [] = o := by
  cases o with
  | none => rfl
  | some a => simp [survivorOpt, survivor]

/-- The value stored per key after the whole fold is the survivor of the
same-key findings, in input order. -/
theorem findVal_foldl_dedup (k : String × Nat) :
    ∀ (l : List ReviewFinding) (m : List ((String × Nat) × ReviewFinding)),
      findVal k (l.foldl dedupStep m) =
        survivorOpt (findVal k m) (l.filter (fun f => decide (keyOf f = k))) := by
  intro l
  induction l with
  | nil =>
    intro m
    rw [List.foldl_nil, List.filter_nil, survivorOpt_nil]
  | cons f l ih =>
    intro m
    rw [List.foldl_cons, ih (dedupStep m f), findVal_dedupStep, List.filter_cons]
    by_cases hk : keyOf f = k
    · rw [if_pos hk, decide_eq_true hk, if_pos rfl, survivorOpt_step]
      congr 1
      cases findVal k m with
      | none => rfl
      | some a => rfl
    · rw [if_neg hk, decide_eq_false hk]
      simp

theorem foldl_dedup_key_inv :
    ∀ (l : List ReviewFinding) (m : List ((String × Nat) × ReviewFinding)),
      (∀ kv ∈ m, kv.1 = keyOf kv.2) →
      ∀ kv ∈ l.foldl dedupStep m, kv.1 = keyOf kv.2 := by
  intro l
  induction l with
  | nil => intro m hm; exact hm
  | cons f l ih =>
    intro m hm
    rw [List.foldl_cons]
    refine ih (dedupStep m f) ?_
    intro kv hkv
    cases hfind : findVal (keyOf f) m with
    | none =>
      simp only [dedupStep, hfind] at hkv
      rcases List.mem_append.mp hkv with hold | hnew
      · exact hm kv hold
      · rw [List.mem_singleton.mp hnew]
    | some a =>
      simp only [dedupStep, hfind] at hkv
      by_cases hlt : severityRank a.severity < severityRank f.severity
      · rw [if_pos hlt] at hkv
        rcases List.mem_map.mp hkv with ⟨kv0, hkv0, hrepl⟩
        by_cases h0 : kv0.1 = keyOf f
        · rw [if_pos h0] at hrepl
          rw [← hrepl]
        · rw [if_neg h0] at hrepl
          rw [← hrepl]
          exact hm kv0 hkv0
      · rw [if_neg hlt] at hkv
        exact hm kv hkv

theorem findVal_eq_none_iff (k : String × Nat) :
    ∀ (m : List ((String × Nat) × ReviewFinding)),
      findVal k m = none ↔ k ∉ m.map Prod.fst := by
  intro m
  induction m with
  | nil => simp [findVal]
  | cons kv rest ih =>
    rw [findVal, List.map_cons]
    by_cases h : kv.1 = k
    · rw [if_pos h]
      simp [h]
    · rw [if_neg h, ih]
      constructor
      · intro hnot hmem
        rcases List.mem_cons.mp hmem with he | hmem2
        · exact h he.symm
        · exact hnot hmem2
      · intro hnot hmem2
        exact hnot (List.mem_cons_of_mem _ hmem2)

theorem keys_replaceVal (k : String × Nat) (v : ReviewFinding)
    (m : List ((String × Nat) × ReviewFinding)) :
    (replaceVal k v m).map Prod.fst = m.map Prod.fst := by
  rw [replaceVal, List.map_map]
  refine List.map_congr_left ?_
  intro kv _
  by_cases h : kv.1 = k
  · simp [h]
  · simp [h]

theorem foldl_dedup_keys_nodup :
    ∀ (l : List ReviewFinding) (m : List ((String × Nat) × ReviewFinding)),
      ((m.map Prod.fst).Nodup) → (((l.foldl dedupStep m).map Prod.fst).Nodup) := by
  intro l
  induction l with
  | nil => intro m hm; exact hm
  | cons f l ih =>
    intro m hm
    rw [List.foldl_cons]
    refine ih (dedupStep m f) ?_
    cases hfind : findVal (keyOf f) m with
    | none =>
      simp only [dedupStep, hfind]
      rw [List.map_append]
      simp only [List.map_cons, List.map_nil]
      rw [List.nodup_append]
      refine ⟨hm, List.nodup_singleton _, ?_⟩
      intro k hk hk1
      rw [List.mem_singleton.mp hk1] at hk
      exact ((findVal_eq_none_iff (keyOf f) m).mp hfind) hk
    | some a =>
      simp only [dedupStep, hfind]
      by_cases hlt : severityRank a.severity < severityRank f.severity
      · rw [if_pos hlt, keys_replaceVal]
        exact hm
      · rw [if_neg hlt]
        exact hm

theorem findVal_of_mem_nodup :
    ∀ (m : List ((String × Nat) × ReviewFinding))
      (kv : (String × Nat) × ReviewFinding),
      ((m.map Prod.fst).Nodup) → kv ∈ m → findVal kv.1 m = some kv.2 := by
  intro m
  induction m with
  | nil => intro kv _ hkv; simp at hkv
  | cons hd tl ih =>
    intro kv hnd hkv
    rw [List.map_cons, List.nodup_cons] at hnd
    rcases List.mem_cons.mp hkv with rfl | htl
    · rw [findVal, if_pos rfl]
    · have hne : hd.1 ≠ kv.1 := by
        intro he
        exact hnd.1 (he ▸ List.mem_map_of_mem Prod.fst htl)
      rw [findVal, if_neg hne]
      exact ih kv hnd.2 htl

theorem severityRank_le_survivor :
    ∀ (fs : List ReviewFinding) (a : ReviewFinding),
      severityRank a.severity ≤ severityRank (survivor a fs).severity := by
  intro fs
  induction fs with
  | nil => intro a; exact le_refl _
  | cons f fs ih =>
    intro a
    rw [survivor]
    by_cases hlt : severityRank a.severity < severityRank f.severity
    · rw [if_pos hlt]
      exact le_of_lt (lt_of_lt_of_le hlt (ih f))
    · rw [if_neg hlt]
      exact ih a

/-- The survivor is the first finding of maximal severity in its run:
everything before it is strictly lower, everything after at most equal. -/
theorem survivor_split :
    ∀ (fs : List ReviewFinding) (a : ReviewFinding),
      ∃ pre post, a :: fs = pre ++ survivor a fs :: post ∧
        (∀ x ∈ pre,
          severityRank x.severity < severityRank (survivor a fs).severity) ∧
        (∀ x ∈ post,
          severityRank x.severity ≤ severityRank (survivor a fs).severity) := by
  intro fs
  induction fs with
  | nil =>
    intro a
    exact ⟨[], [], rfl, by simp, by simp⟩
  | cons f fs ih =>
    intro a
    rw [survivor]
    by_cases hlt : severityRank a.severity < severityRank f.severity
    · rw [if_pos hlt]
      rcases ih f with ⟨pre, post, heq, hpre, hpost⟩
      refine ⟨a :: pre, post, ?_, ?_, hpost⟩
      · rw [List.cons_append, ← heq]
      · intro x hx
        rcases List.mem_cons.mp hx with rfl | hx
        · exact lt_of_lt_of_le hlt (severityRank_le_survivor fs f)
        · exact hpre x hx
    · rw [if_neg hlt]
      rcases ih a with ⟨pre, post, heq, hpre, hpost⟩
      cases pre with
      | nil =>
        rw [List.nil_append] at heq
        have ha : a = survivor a fs := (List.cons.injEq _ _ _ _ ▸ heq).1
        have hfs : fs = post := (List.cons.injEq _ _ _ _ ▸ heq).2
        refine ⟨[], f :: post, ?_, by simp, ?_⟩
        · rw [List.nil_append, ← ha, ← hfs]
        · intro x hx
          rcases List.mem_cons.mp hx with rfl | hx
          · rw [← ha]
            exact le_of_not_lt hlt
          · exact hpost x hx
      | cons p pre' =>
        rw [List.cons_append] at heq
        have hap : a = p := (List.cons.injEq _ _ _ _ ▸ heq).1
        have hfs : fs = pre' ++ survivor a fs :: post :=
          (List.cons.injEq _ _ _ _ ▸ heq).2
        have hasurv : severityRank a.severity <
            severityRank (survivor a fs).severity :=
          hap ▸ hpre p (List.mem_cons_self _ _)
        refine ⟨a :: f :: pre', post, ?_, ?_, hpost⟩
        · rw [List.cons_append, List.cons_append, ← hfs]
        · intro x hx
          rcases List.mem_cons.mp hx with rfl | hx
          · exact hasurv
          · rcases List.mem_cons.mp hx with rfl | hx
            · exact lt_of_le_of_lt (le_of_not_lt hlt) hasurv
            · exact hpre x (List.mem_cons_of_mem p hx)

/-- C10: before filtering, the orchestrator deduplicates the combined
rule-then-LLM finding list by `(path, line)` — the output keys are
distinct, exactly the input keys survive, and the finding kept at each
location is the survivor of its same-key run under the strict policy:
the first finding of maximal severity, so a later finding replaces an
earlier one only when its severity is strictly higher and at equal
severity the earlier (rule-first) finding is kept. -/
theorem C10_dedup_by_location (ruleComments llmComments : List ReviewFinding) :
    ((deduplicateFindings (ruleComments ++ llmComments)).map keyOf).Nodup ∧
      (∀ k, k ∈ (deduplicateFindings (ruleComments ++ llmComments)).map keyOf ↔
        k ∈ (ruleComments ++ llmComments).map keyOf) ∧
      (∀ g ∈ deduplicateFindings (ruleComments ++ llmComments),
        ∃ f fs,
          (ruleComments ++ llmComments).filter
              (fun x => decide (keyOf x = keyOf g)) = f :: fs ∧
            g = survivor f fs) ∧
      (∀ (a : ReviewFinding) (fs : List ReviewFinding),
        ∃ pre post, a :: fs = pre ++ survivor a fs :: post ∧
          (∀ x ∈ pre,
            severityRank x.severity < severityRank (survivor a fs).severity) ∧
          (∀ x ∈ post,
            severityRank x.severity ≤ severityRank (survivor a fs).severity)) := by
  have hinv := foldl_dedup_key_inv (ruleComments ++ llmComments) []
    (by intro kv h; simp at h)
  have hnd := foldl_dedup_keys_nodup (ruleComments ++ llmComments) [] (by simp)
  have hkeys : (deduplicateFindings (ruleComments ++ llmComments)).map keyOf =
      ((ruleComments ++ llmComments).foldl dedupStep []).map Prod.fst := by
    rw [deduplicateFindings, List.map_map]
    refine List.map_congr_left ?_
    intro kv hkv
    exact (hinv kv hkv).symm
  refine ⟨by rw [hkeys]; exact hnd, ?_, ?_, fun a fs => survivor_split fs a⟩
  · intro k
    rw [hkeys]
    have hval := findVal_foldl_dedup k (ruleComments ++ llmComments) []
    cases hfil : (ruleComments ++ llmComments).filter
        (fun f => decide (keyOf f = k)) with
    | nil =>
      rw [hfil, survivorOpt_nil] at hval
      have h1 : k ∉ ((ruleComments ++ llmComments).foldl dedupStep []).map
          Prod.fst :=
        (findVal_eq_none_iff k _).mp hval
      constructor
      · intro hk
        exact absurd hk h1
      · intro hk
        rcases List.mem_map.mp hk with ⟨f, hf, hfk⟩
        have hfmem : f ∈ (ruleComments ++ llmComments).filter
            (fun f => decide (keyOf f = k)) :=
          List.mem_filter.mpr ⟨hf, by simp [hfk]⟩
        rw [hfil] at hfmem
        simp at hfmem
    | cons f fs =>
      rw [hfil] at hval
      have hne : findVal k ((ruleComments ++ llmComments).foldl dedupStep []) ≠
          none := by
        intro hc
        rw [hval] at hc
        simp [survivorOpt, findVal] at hc
      constructor
      · intro _
        have hfmem : f ∈ (ruleComments ++ llmComments).filter
            (fun f => decide (keyOf f = k)) := by
          rw [hfil]
          exact List.mem_cons_self _ _
        have hsplit := List.mem_filter.mp hfmem
        exact List.mem_map.mpr ⟨f, hsplit.1, by simpa using hsplit.2⟩
      · intro _
        by_contra hk
        exact hne ((findVal_eq_none_iff k _).mpr hk)
  · intro g hg
    rcases List.mem_map.mp hg with ⟨kv, hkv, hkv2⟩
    have hk1 : kv.1 = keyOf kv.2 := hinv kv hkv
    have hgk : keyOf g = kv.1 := (hkv2 ▸ hk1).symm
    have hfv : findVal kv.1 ((ruleComments ++ llmComments).foldl dedupStep []) =
        some kv.2 :=
      findVal_of_mem_nodup _ kv hnd hkv
    have hval := findVal_foldl_dedup kv.1 (ruleComments ++ llmComments) []
    rw [hfv] at hval
    cases hfil : (ruleComments ++ llmComments).filter
        (fun x => decide (keyOf x = kv.1)) with
    | nil =>
      rw [hfil] at hval
      exact absurd hval (by simp [survivorOpt, findVal])
    | cons f fs =>
      rw [hfil] at hval
      simp only [survivorOpt, findVal, Option.some.injEq] at hval
      refine ⟨f, fs, ?_, ?_⟩
      · rw [hgk]
        exact hfil
      · rw [← hkv2]
        exact hval
  
/-- Witness for C10 at a concrete input: the location of the error
finding survives deduplication of a rule finding and an LLM finding at
different lines. -/
theorem C10_dedup_by_location_witness :
    (("a.ts", 1) : String × Nat) ∈
      (deduplicateFindings ([Filter.exErrFinding] ++ [Filter.exWarnFinding])).map
        keyOf :=
  ((C10_dedup_by_location [Filter.exErrFinding] [Filter.exWarnFinding]).2.1
    ("a.ts", 1)).mpr (by decide)

end Orchestrator
